import Mathlib

/-!
Verification of the Synonym Group Consolidation Engine
(`group_synonyms` in `synonymsWithDatamuse.py`).

The engine reads a delimited file of synonym lines, repeatedly merges lines
that share a word, removes degenerate (empty or singleton) lines and
intra-line duplicates, and writes the consolidated partition back.

Modelling notes, each tied to the Python source:
* A file already read by `readlines()` is a `List String` of raw lines
  (terminators included); the consolidated state is a `List (List String)`.
* `line.strip()`, `line.lower()`, `line.split(sep)`, `sep.join(ws)` and
  `filename.endswith(ext)` are modelled character-wise (`pyStrip`, `pyLower`,
  `pySplit`, `pyJoin`, `pyEndsWith`), following Python string semantics; the
  separator is a single character (the code only ever uses "," or "\t").
* `list(set(line))` keeps exactly the distinct words of `line` in an order
  CPython does not specify.  The main model fixes the first-occurrence order
  (`pyDedup`); `scan`/`loopD` keep the enumeration order as an explicit
  parameter `dd` so that order-dependence itself can be analysed.
* `raise` is modelled as `Except.error` carrying the Python message.
* The `for i, line in enumerate(lst)` loop with `lst.pop(i); continue` in the
  body advances the iterator past the element that slides into slot `i`:
  `scan` therefore recurses with `(s.eraseIdx i)` and index `i + 1`.
* `while changes:` is the well-founded recursion `loop`; its measure is
  justified ahead of the definition (`scan_mu_lt`).
-/

/-- Python `str.strip()` whitespace test (the ASCII part). -/
def pyIsSpace (c : Char) : Bool :=
  c = ' ' || c = '\t' || c = '\n' || c = '\r' || c = '\x0b' || c = '\x0c'

/-- Python `line.strip()`: drop leading and trailing whitespace. -/
def pyStrip (s : String) : String :=
  ⟨((s.data.dropWhile pyIsSpace).reverse.dropWhile pyIsSpace).reverse⟩

/-- Python `line.lower()`, character-wise. -/
def pyLower (s : String) : String := ⟨s.data.map Char.toLower⟩

/-- Split a character list at every occurrence of `sep` (empty pieces kept),
the semantics of Python `str.split(sep)` for a one-character separator. -/
def splitCharAux (sep : Char) : List Char → List (List Char)
  | [] => [[]]
  | c :: cs =>
    match splitCharAux sep cs with
    | [] => [[c]]
    | h :: t => if c = sep then [] :: h :: t else (c :: h) :: t

/-- Python `line.split(sep)` for the one-character separators used here. -/
def pySplit (sep : Char) (s : String) : List String :=
  (splitCharAux sep s.data).map (fun l => ⟨l⟩)

/-- Python `sep.join(words)`. -/
def pyJoin (sep : Char) : List String → String
  | [] => ""
  | [w] => w
  | w :: ws => w ++ ⟨[sep]⟩ ++ pyJoin sep ws

/-- Python `filename.endswith(pat)`. -/
def pyEndsWith (s pat : String) : Bool := pat.data.isSuffixOf s.data

/-- The in-memory synonym file: one entry per line, each a list of words
(`synonymsByLine` in the source). -/
abbrev SynFile := List (List String)

/-- Lines 34-39: choose the separator from the file extension, or fail with
the Python exception message (the `UnsupportedFormatError` of the spec). -/
def pickSep (filename : String) : Except String Char :=
  if pyEndsWith filename ".csv" then .ok ','
  else if pyEndsWith filename ".tsv" then .ok '\t'
  else .error (filename ++ " is an invalid file extension. Only .csv and .tsv files are allowed")

/-- Line 41: `line.strip().lower().split(separator)` for one raw line. -/
def parseLine (sep : Char) (raw : String) : List String :=
  pySplit sep (pyLower (pyStrip raw))

/-- Line 41: the initial `synonymsByLine` built from every line of the file. -/
def initFile (sep : Char) (lines : List String) : SynFile :=
  lines.map (parseLine sep)

/-- `list(set(line))` with the set enumerated in first-occurrence order:
the distinct words of the input, each at its first position.  `seen`
accumulates the words already emitted. -/
def pyDedupAux (seen : List String) : List String → List String
  | [] => []
  | x :: xs => if x ∈ seen then pyDedupAux seen xs else x :: pyDedupAux (x :: seen) xs

/-- Line 63: `list(set(line))`, first-occurrence enumeration order. -/
def pyDedup (l : List String) : List String := pyDedupAux [] l

/-- Lines 67-73, the inner `for synonym in line` loop: walk the words of a
line, returning the first one already in `processed`; the words walked past
are added to `processed` exactly as the Python loop does. -/
def findDup (processed : List String) : List String → Option String
  | [] => none
  | w :: ws => if w ∈ processed then some w else findDup (w :: processed) ws

/-- Lines 46-47: index of the first line satisfying `p`, scanning from the
front (the search loop of `substitute_synonyms`). -/
def firstIdx (p : List String → Bool) : SynFile → Option Nat
  | [] => none
  | l :: ls => if p l then some 0 else (firstIdx p ls).map (· + 1)

/-- Lines 45-51, `substitute_synonyms`: find the first line containing
`syn`, append `grp` to it, clear line `idx`; raise if no line contains
`syn`.  The two updates happen in the Python order (append, then clear). -/
def substitute_synonyms (syn : String) (grp : List String) (idx : Nat) (s : SynFile) :
    Except String SynFile :=
  match firstIdx (fun l => decide (syn ∈ l)) s with
  | some j => .ok ((s.set j (s.getD j [] ++ grp)).set idx [])
  | none => .error ("Synonym " ++ syn ++ " not found in the file")

theorem substitute_length {syn : String} {grp : List String} {idx : Nat} {s s2 : SynFile}
    (h : substitute_synonyms syn grp idx s = .ok s2) : s2.length = s.length := by
  unfold substitute_synonyms at h
  rcases h2 : firstIdx (fun l => decide (syn ∈ l)) s with _ | j <;> rw [h2] at h
  · cases h
  · cases h
    simp [List.length_set]

/-- Lines 57-73, the body of one pass: the `for i, line in enumerate(...)`
loop from index `i`, with the processed-word set and the change flag.
`dd` is the enumeration order of `list(set(line))` (the engine proper uses
`pyDedup`).  Degenerate lines are popped (the iterator then skips the line
that slides into slot `i`, as in Python); otherwise the line is replaced by
its deduplication, and the first word already processed triggers
`substitute_synonyms`. -/
def scan (dd : List String → List String) (s : SynFile) (i : Nat)
    (processed : List String) (changes : Bool) : Except String (SynFile × Bool) :=
  if h : i < s.length then
    let line := s[i]
    if line.length < 2 then
      scan dd (s.eraseIdx i) (i + 1) processed true
    else
      let line2 := dd line
      let changes2 := changes || (line2.length != line.length)
      let s2 := s.set i line2
      match findDup processed line2 with
      | none => scan dd s2 (i + 1) (processed ++ line2) changes2
      | some w =>
        match h3 : substitute_synonyms w line2 i s2 with
        | .error e => .error e
        | .ok s3 => scan dd s3 (i + 1) (processed ++ line2) true
  else
    .ok (s, changes)
termination_by s.length - i
decreasing_by
  · have h1 : (s.eraseIdx i).length = s.length - 1 := List.length_eraseIdx_of_lt h
    omega
  · simp only [List.length_set]; omega
  · have h4 : s3.length = (s.set i (dd s[i])).length := substitute_length h3
    simp only [List.length_set] at h4
    omega

/-- Lines 54-73: one full pass of the `while changes` loop, started at index
0 with an empty processed set and the change flag down. -/
def onePass (s : SynFile) : Except String (SynFile × Bool) :=
  scan pyDedup s 0 [] false

/-- 1 for a nonempty line, 0 for an empty one. -/
def lineWeight (l : List String) : Nat := if l.isEmpty then 0 else 1

/-- Termination measure for the `while changes` loop: twice the number of
lines, plus the total number of word tokens, plus the number of nonempty
lines.  Every change the pass flags strictly decreases it. -/
def mu (s : SynFile) : Nat :=
  2 * s.length + (s.map List.length).sum + (s.map lineWeight).sum

theorem mem_pyDedupAux {a : String} {seen l : List String} :
    a ∈ pyDedupAux seen l ↔ a ∈ l ∧ a ∉ seen := by
  induction l generalizing seen with
  | nil => simp [pyDedupAux]
  | cons x xs ih =>
    by_cases hx : x ∈ seen
    · simp only [pyDedupAux, if_pos hx, ih, List.mem_cons]
      constructor
      · rintro ⟨h1, h2⟩
        exact ⟨Or.inr h1, h2⟩
      · rintro ⟨h1, h2⟩
        rcases h1 with rfl | h1
        · exact absurd hx h2
        · exact ⟨h1, h2⟩
    · simp only [pyDedupAux, if_neg hx, List.mem_cons, ih, not_or]
      constructor
      · rintro (rfl | ⟨h1, h2, h3⟩)
        · exact ⟨Or.inl rfl, hx⟩
        · exact ⟨Or.inr h1, h3⟩
      · rintro ⟨h1, h2⟩
        rcases h1 with rfl | h1
        · exact Or.inl rfl
        · by_cases hax : a = x
          · exact Or.inl hax
          · exact Or.inr ⟨h1, hax, h2⟩

theorem pyDedupAux_sublist (seen l : List String) : (pyDedupAux seen l).Sublist l := by
  induction l generalizing seen with
  | nil => simp [pyDedupAux]
  | cons x xs ih =>
    by_cases hx : x ∈ seen <;> simp only [pyDedupAux, hx, ite_true, ite_false]
    · exact (ih seen).trans (List.sublist_cons_self x xs)
    · exact (ih (x :: seen)).cons₂ x

theorem pyDedupAux_nodup (seen l : List String) : (pyDedupAux seen l).Nodup := by
  induction l generalizing seen with
  | nil => simp [pyDedupAux]
  | cons x xs ih =>
    by_cases hx : x ∈ seen <;> simp only [pyDedupAux, hx, ite_true, ite_false]
    · exact ih seen
    · refine List.nodup_cons.mpr ⟨fun hmem => ?_, ih (x :: seen)⟩
      exact (mem_pyDedupAux.mp hmem).2 (List.mem_cons_self x seen)

theorem mem_pyDedup {a : String} {l : List String} : a ∈ pyDedup l ↔ a ∈ l := by
  simp [pyDedup, mem_pyDedupAux]

theorem pyDedup_nodup (l : List String) : (pyDedup l).Nodup := pyDedupAux_nodup [] l

theorem pyDedup_sublist (l : List String) : (pyDedup l).Sublist l := pyDedupAux_sublist [] l

theorem pyDedup_len_le (l : List String) : (pyDedup l).length ≤ l.length :=
  (pyDedup_sublist l).length_le

theorem pyDedup_eq_of_len {l : List String} (h : (pyDedup l).length = l.length) :
    pyDedup l = l :=
  (pyDedup_sublist l).eq_of_length h

theorem pyDedup_ne_nil {l : List String} (h : l ≠ []) : pyDedup l ≠ [] := by
  match l with
  | x :: xs => simp [pyDedup, pyDedupAux]

theorem pyDedupAux_eq_self {seen l : List String} (h1 : l.Nodup)
    (h2 : ∀ a ∈ l, a ∉ seen) : pyDedupAux seen l = l := by
  induction l generalizing seen with
  | nil => rfl
  | cons x xs ih =>
    have hx : x ∉ seen := h2 x (List.mem_cons_self x xs)
    simp only [pyDedupAux, hx, ite_false]
    congr 1
    refine ih (List.nodup_cons.mp h1).2 fun a ha => ?_
    simp only [List.mem_cons, not_or]
    exact ⟨fun hax => (List.nodup_cons.mp h1).1 (hax ▸ ha), h2 a (List.mem_cons_of_mem x ha)⟩

theorem pyDedup_eq_self {l : List String} (h : l.Nodup) : pyDedup l = l :=
  pyDedupAux_eq_self h (by simp)

theorem findDup_none_mem {P l : List String} (h : findDup P l = none) :
    ∀ w ∈ l, w ∉ P := by
  induction l generalizing P with
  | nil => simp
  | cons x xs ih =>
    simp only [findDup] at h
    by_cases hx : x ∈ P
    · simp [hx] at h
    · simp only [hx, ite_false] at h
      intro w hw
      rcases List.mem_cons.mp hw with rfl | hw
      · exact hx
      · intro hP
        exact ih h w hw (List.mem_cons_of_mem x hP)

theorem findDup_not_found {P l : List String} (h1 : l.Nodup) (h2 : ∀ w ∈ l, w ∉ P) :
    findDup P l = none := by
  induction l generalizing P with
  | nil => rfl
  | cons x xs ih =>
    have hx : x ∉ P := h2 x (List.mem_cons_self x xs)
    simp only [findDup, hx, ite_false]
    refine ih (List.nodup_cons.mp h1).2 fun w hw => ?_
    simp only [List.mem_cons, not_or]
    exact ⟨fun hwx => (List.nodup_cons.mp h1).1 (hwx ▸ hw), h2 w (List.mem_cons_of_mem x hw)⟩

theorem findDup_found {P l : List String} {w : String} (h1 : l.Nodup)
    (h : findDup P l = some w) : w ∈ l ∧ w ∈ P := by
  induction l generalizing P with
  | nil => simp [findDup] at h
  | cons x xs ih =>
    simp only [findDup] at h
    by_cases hx : x ∈ P
    · simp only [hx, ite_true, Option.some_inj] at h
      exact ⟨h ▸ List.mem_cons_self x xs, h ▸ hx⟩
    · simp only [hx, ite_false] at h
      obtain ⟨hw1, hw2⟩ := ih (List.nodup_cons.mp h1).2 h
      refine ⟨List.mem_cons_of_mem x hw1, ?_⟩
      rcases List.mem_cons.mp hw2 with rfl | hmem
      · exact absurd hw1 (List.nodup_cons.mp h1).1
      · exact hmem

theorem firstIdx_some_spec {p : List String → Bool} {s : SynFile} {j : Nat}
    (h : firstIdx p s = some j) :
    ∃ hj : j < s.length, p s[j] = true ∧ ∀ k, ∀ hk : k < s.length, k < j → p s[k] = false := by
  induction s generalizing j with
  | nil => simp [firstIdx] at h
  | cons l ls ih =>
    unfold firstIdx at h
    by_cases hp : p l = true
    · rw [if_pos hp] at h
      injection h with h
      subst h
      exact ⟨by simp, hp, fun k hk hk0 => absurd hk0 (Nat.not_lt_zero k)⟩
    · rw [if_neg hp] at h
      rw [Option.map_eq_some'] at h
      obtain ⟨j', hj', hj2⟩ := h
      subst hj2
      obtain ⟨hlt, hpj, hprev⟩ := ih hj'
      refine ⟨by simpa using hlt, by simpa using hpj, fun k hk hk0 => ?_⟩
      match k with
      | 0 => simpa [Bool.not_eq_true] using hp
      | k + 1 =>
        have := hprev k (by simpa using hk) (by omega)
        simpa using this

theorem firstIdx_found {p : List String → Bool} {s : SynFile} {j : Nat}
    (hj : j < s.length) (hp : p s[j] = true) :
    ∃ j', firstIdx p s = some j' ∧ j' ≤ j := by
  induction s generalizing j with
  | nil => simp at hj
  | cons l ls ih =>
    by_cases hl : p l = true
    · exact ⟨0, by unfold firstIdx; rw [if_pos hl], Nat.zero_le j⟩
    · match j with
      | 0 => exact absurd (by simpa using hp) hl
      | j + 1 =>
        obtain ⟨j', hfi, hle⟩ := ih (j := j) (by simpa using hj) (by simpa using hp)
        refine ⟨j' + 1, ?_, by omega⟩
        unfold firstIdx
        rw [if_neg hl, hfi]
        rfl

theorem substitute_spec {syn : String} {grp : List String} {idx : Nat} {s s2 : SynFile}
    (h : substitute_synonyms syn grp idx s = .ok s2) :
    ∃ j, ∃ hj : j < s.length, syn ∈ s[j] ∧
      (∀ k, ∀ hk : k < s.length, k < j → syn ∉ s[k]) ∧
      s2 = (s.set j (s[j] ++ grp)).set idx [] := by
  unfold substitute_synonyms at h
  rcases h2 : firstIdx (fun l => decide (syn ∈ l)) s with _ | j <;> rw [h2] at h
  · cases h
  · obtain ⟨hj, hpj, hprev⟩ := firstIdx_some_spec h2
    cases h
    refine ⟨j, hj, by simpa using hpj, fun k hk hk0 => by simpa using hprev k hk hk0, ?_⟩
    rw [List.getD_eq_getElem s [] hj]

theorem substitute_success {syn : String} (grp : List String) (idx : Nat) {j : Nat}
    {s : SynFile} (hj : j < s.length) (hmem : syn ∈ s[j]) :
    ∃ s2, substitute_synonyms syn grp idx s = .ok s2 := by
  obtain ⟨j', hfi, _⟩ := firstIdx_found (p := fun l => decide (syn ∈ l)) hj (by simpa using hmem)
  exact ⟨_, by unfold substitute_synonyms; rw [hfi]⟩

theorem sum_map_set (f : List String → Nat) :
    ∀ (s : SynFile) (i : Nat) (d : List String) (h : i < s.length),
      ((s.set i d).map f).sum + f s[i] = (s.map f).sum + f d := by
  intro s
  induction s with
  | nil => intro i d h; simp at h
  | cons a t ih =>
    intro i d h
    match i with
    | 0 => simp [List.set]; omega
    | i + 1 =>
      have := ih i d (by simpa using h)
      simp only [List.set, List.map_cons, List.sum_cons, List.getElem_cons_succ]
      omega

theorem sum_map_erase (f : List String → Nat) :
    ∀ (s : SynFile) (i : Nat) (h : i < s.length),
      ((s.eraseIdx i).map f).sum + f s[i] = (s.map f).sum := by
  intro s
  induction s with
  | nil => intro i h; simp at h
  | cons a t ih =>
    intro i h
    match i with
    | 0 => simp [List.eraseIdx]; omega
    | i + 1 =>
      have := ih i (by simpa using h)
      simp only [List.eraseIdx, List.map_cons, List.sum_cons, List.getElem_cons_succ]
      omega

theorem set_self_eq (s : SynFile) (i : Nat) (h : i < s.length) : s.set i s[i] = s := by
  apply List.ext_getElem
  · simp
  · intro n h1 h2
    rw [List.getElem_set]
    split
    · next heq => subst heq; rfl
    · rfl

theorem mu_erase_lt {s : SynFile} {i : Nat} (h : i < s.length) :
    mu (s.eraseIdx i) < mu s := by
  have e1 := sum_map_erase List.length s i h
  have e2 := sum_map_erase lineWeight s i h
  have e3 : (s.eraseIdx i).length = s.length - 1 := List.length_eraseIdx_of_lt h
  unfold mu
  omega

theorem mu_set_le {s : SynFile} {i : Nat} {d : List String} (h : i < s.length)
    (h1 : d.length ≤ s[i].length) (h2 : lineWeight d ≤ lineWeight s[i]) :
    mu (s.set i d) ≤ mu s := by
  have e1 := sum_map_set List.length s i d h
  have e2 := sum_map_set lineWeight s i d h
  have e3 : (s.set i d).length = s.length := List.length_set s i d
  unfold mu
  omega

theorem mu_set_lt {s : SynFile} {i : Nat} {d : List String} (h : i < s.length)
    (h1 : d.length < s[i].length) (h2 : lineWeight d ≤ lineWeight s[i]) :
    mu (s.set i d) < mu s := by
  have e1 := sum_map_set List.length s i d h
  have e2 := sum_map_set lineWeight s i d h
  have e3 : (s.set i d).length = s.length := List.length_set s i d
  unfold mu
  omega

theorem lineWeight_pos {l : List String} (h : l ≠ []) : lineWeight l = 1 := by
  unfold lineWeight
  simp [h]

theorem mu_merge_lt {s : SynFile} {i j : Nat} {g : List String} (hi : i < s.length)
    (hj : j < s.length) (hg : s[i] = g) (hne1 : s[i] ≠ []) (hne2 : s[j] ≠ []) :
    mu ((s.set j (s[j] ++ g)).set i []) < mu s := by
  subst hg
  by_cases hij : i = j
  · subst hij
    rw [List.set_set]
    refine mu_set_lt hi ?_ ?_
    · simpa using List.length_pos.mpr hne1
    · simp [lineWeight]
  · have len1 : (s.set j (s[j] ++ s[i])).length = s.length := List.length_set s j _
    have hi' : i < (s.set j (s[j] ++ s[i])).length := by rw [len1]; exact hi
    have egi : (s.set j (s[j] ++ s[i]))[i] = s[i] := List.getElem_set_ne (Ne.symm hij) hi'
    have e1 := sum_map_set List.length s j (s[j] ++ s[i]) hj
    have e2 := sum_map_set lineWeight s j (s[j] ++ s[i]) hj
    have e3 := sum_map_set List.length (s.set j (s[j] ++ s[i])) i [] hi'
    have e4 := sum_map_set lineWeight (s.set j (s[j] ++ s[i])) i [] hi'
    rw [egi] at e3 e4
    have len2 : ((s.set j (s[j] ++ s[i])).set i []).length = s.length := by
      rw [List.length_set, len1]
    have w1 : lineWeight (s[j] ++ s[i]) = 1 := lineWeight_pos (by simp [hne2])
    have w2 : lineWeight s[j] = 1 := lineWeight_pos hne2
    have w3 : lineWeight s[i] = 1 := lineWeight_pos hne1
    have w4 : lineWeight ([] : List String) = 0 := by simp [lineWeight]
    have lapp : (s[j] ++ s[i]).length = s[j].length + s[i].length := List.length_append _ _
    have lpos : 0 < s[i].length := List.length_pos.mpr hne1
    simp only [List.length_nil] at e3
    rw [w4] at e4
    unfold mu
    rw [len2]
    omega

theorem scan_pop {dd : List String → List String} {s : SynFile} {i : Nat}
    {P : List String} {c : Bool} (h : i < s.length) (hlt : s[i].length < 2) :
    scan dd s i P c = scan dd (s.eraseIdx i) (i + 1) P true := by
  rw [scan.eq_def, dif_pos h, if_pos hlt]

theorem scan_keep (dd : List String → List String) {s : SynFile} {i : Nat}
    {P : List String} {c : Bool} (h : i < s.length) (hge : ¬ s[i].length < 2)
    (hfd : findDup P (dd s[i]) = none) :
    scan dd s i P c =
      scan dd (s.set i (dd s[i])) (i + 1) (P ++ dd s[i])
        (c || ((dd s[i]).length != s[i].length)) := by
  rw [scan.eq_def, dif_pos h, if_neg hge]
  simp only [hfd]

theorem scan_merge (dd : List String → List String) {s : SynFile} {i : Nat}
    {P : List String} {c : Bool} {w : String} {s3 : SynFile} (h : i < s.length)
    (hge : ¬ s[i].length < 2) (hfd : findDup P (dd s[i]) = some w)
    (hsub : substitute_synonyms w (dd s[i]) i (s.set i (dd s[i])) = .ok s3) :
    scan dd s i P c = scan dd s3 (i + 1) (P ++ dd s[i]) true := by
  rw [scan.eq_def, dif_pos h, if_neg hge]
  simp only [hfd]
  split
  · next e heq => rw [hsub] at heq; cases heq
  · next s3' heq => rw [hsub] at heq; cases heq; rfl

theorem scan_merge_err (dd : List String → List String) {s : SynFile} {i : Nat}
    {P : List String} {c : Bool} {w : String} {e : String} (h : i < s.length)
    (hge : ¬ s[i].length < 2) (hfd : findDup P (dd s[i]) = some w)
    (hsub : substitute_synonyms w (dd s[i]) i (s.set i (dd s[i])) = .error e) :
    scan dd s i P c = .error e := by
  rw [scan.eq_def, dif_pos h, if_neg hge]
  simp only [hfd]
  split
  · next e' heq => rw [hsub] at heq; cases heq; rfl
  · next s3' heq => rw [hsub] at heq; cases heq

theorem scan_stop {dd : List String → List String} {s : SynFile} {i : Nat}
    {P : List String} {c : Bool} (h : ¬ i < s.length) :
    scan dd s i P c = .ok (s, c) := by
  rw [scan.eq_def, dif_neg h]

theorem ne_nil_of_two_le {l : List String} (h : ¬ l.length < 2) : l ≠ [] := by
  intro hnil
  subst hnil
  simp at h

theorem scan_mu (s : SynFile) (i : Nat) (P : List String) (c : Bool) :
    ∀ r, scan pyDedup s i P c = .ok r →
      mu r.1 ≤ mu s ∧ (c = false → r.2 = true → mu r.1 < mu s) := by
  induction s, i, P, c using scan.induct pyDedup with
  | case1 s i P c h line hlt ih =>
    intro r hr
    rw [scan_pop h hlt] at hr
    have h1 := (ih r hr).1
    have h2 := mu_erase_lt (s := s) h
    exact ⟨le_of_lt (lt_of_le_of_lt h1 h2), fun _ _ => lt_of_le_of_lt h1 h2⟩
  | case2 s i P c h line hge line2 changes2 s2 hfd ih =>
    intro r hr
    rw [scan_keep pyDedup h hge hfd] at hr
    have hih := ih r hr
    have hle : mu r.1 ≤ mu (s.set i (pyDedup s[i])) := hih.1
    by_cases hlen : (pyDedup s[i]).length = s[i].length
    · have heq : pyDedup s[i] = s[i] := pyDedup_eq_of_len hlen
      have es : s.set i (pyDedup s[i]) = s := by rw [heq]; exact set_self_eq s i h
      rw [es] at hle
      refine ⟨hle, fun hc hr2 => ?_⟩
      have hc2 : (c || ((pyDedup s[i]).length != s[i].length)) = false := by
        simp [hlen, hc]
      have h3 : mu r.1 < mu (s.set i (pyDedup s[i])) := hih.2 hc2 hr2
      rw [es] at h3
      exact h3
    · have hlt : (pyDedup s[i]).length < s[i].length :=
        lt_of_le_of_ne (pyDedup_len_le _) hlen
      have hne : s[i] ≠ [] := ne_nil_of_two_le hge
      have hmu : mu (s.set i (pyDedup s[i])) < mu s := by
        refine mu_set_lt h hlt ?_
        rw [lineWeight_pos (pyDedup_ne_nil hne), lineWeight_pos hne]
      exact ⟨le_of_lt (lt_of_le_of_lt hle hmu), fun _ _ => lt_of_le_of_lt hle hmu⟩
  | case3 s i P c h line hge line2 s2 w hfd e hsub =>
    intro r hr
    rw [scan_merge_err pyDedup h hge hfd hsub] at hr
    cases hr
  | case4 s i P c h line hge line2 s2 w hfd s3 hsub ih =>
    intro r hr
    rw [scan_merge pyDedup h hge hfd hsub] at hr
    have hne : s[i] ≠ [] := ne_nil_of_two_le hge
    obtain ⟨j, hj, hwj, _, hs3⟩ := substitute_spec hsub
    have hi' : i < (s.set i (pyDedup s[i])).length := by simpa using h
    have egi : (s.set i (pyDedup s[i]))[i] = pyDedup s[i] := List.getElem_set_self hi'
    have hm1 : mu (s.set i (pyDedup s[i])) ≤ mu s := by
      refine mu_set_le h (pyDedup_len_le _) ?_
      rw [lineWeight_pos (pyDedup_ne_nil hne), lineWeight_pos hne]
    have hm2 : mu s3 < mu (s.set i (pyDedup s[i])) := by
      rw [hs3]
      refine mu_merge_lt hi' hj egi ?_ ?_
      · rw [egi]; exact pyDedup_ne_nil hne
      · exact List.ne_nil_of_mem hwj
    have h1 : mu r.1 ≤ mu s3 := (ih r hr).1
    have hlt : mu r.1 < mu s := lt_of_le_of_lt h1 (lt_of_lt_of_le hm2 hm1)
    exact ⟨le_of_lt hlt, fun _ _ => hlt⟩
  | case5 s i P c h =>
    intro r hr
    rw [scan_stop h] at hr
    cases hr
    exact ⟨le_refl _, fun h1 h2 => by rw [h1] at h2; cases h2⟩

/-- Lines 54-73: the `while changes:` loop.  Each pass that still reports a
change strictly decreases `mu` (`scan_mu`), so the loop terminates. -/
def loop (s : SynFile) : Except String SynFile :=
  match h : onePass s with
  | .error e => .error e
  | .ok (s', false) => .ok s'
  | .ok (s', true) => loop s'
termination_by mu s
decreasing_by
  exact (scan_mu s 0 [] false (s', true) h).2 rfl rfl

/-- Lines 29-73 of `group_synonyms`: pick the separator from the filename,
parse every raw line, and run the consolidation loop; the result is the line
list that lines 76-78 write back. -/
def group_synonyms (filename : String) (lines : List String) : Except String SynFile :=
  match pickSep filename with
  | .error e => .error e
  | .ok sep => loop (initFile sep lines)

/-- Lines 76-78: serialize the consolidated lines, one per output line,
delimiter-joined and newline-terminated. -/
def writeBack (sep : Char) (s : SynFile) : String :=
  String.join (s.map (fun line => pyJoin sep line ++ "\n"))

/-- `group_synonyms` seen at the file level: the text written back. -/
def group_synonyms_file (filename : String) (lines : List String) : Except String String :=
  match pickSep filename with
  | .error e => .error e
  | .ok sep => (loop (initFile sep lines)).map (writeBack sep)

/-- The `while changes:` loop with the `list(set(...))` enumeration order `dd`
explicit and fuel in place of the measure (an arbitrary `dd` need not
terminate); used to analyse how the output depends on the enumeration
order CPython leaves open. -/
def loopD (dd : List String → List String) : Nat → SynFile → Except String SynFile
  | 0, _ => .error "out of fuel"
  | fuel + 1, s =>
    match scan dd s 0 [] false with
    | .error e => .error e
    | .ok (s', false) => .ok s'
    | .ok (s', true) => loopD dd fuel s'

/-- `group_synonyms` at the file level with the set-enumeration order `dd`
explicit (`group_synonyms_file` is the `pyDedup` instance, see
`loopD_pyDedup`). -/
def group_synonymsD (dd : List String → List String) (fuel : Nat)
    (filename : String) (lines : List String) : Except String String :=
  match pickSep filename with
  | .error e => .error e
  | .ok sep => (loopD dd fuel (initFile sep lines)).map (writeBack sep)

/-- At most `n` further passes of the `while changes:` loop: stops early at
the first pass that reports no change (second component `false`). -/
def passes : Nat → SynFile → Except String (SynFile × Bool)
  | 0, s => .ok (s, true)
  | n + 1, s =>
    match onePass s with
    | .error e => .error e
    | .ok (s', false) => .ok (s', false)
    | .ok (s', true) => passes n s'

/-- Two words co-occur in some line of the state. -/
def Together (s : SynFile) (a b : String) : Prop := ∃ l ∈ s, a ∈ l ∧ b ∈ l

/-- Two words are connected, directly or transitively, through shared line
membership: the connected-component relation of the hypergraph whose
hyperedges are the lines of `s`. -/
def Conn (s : SynFile) (a b : String) : Prop := Relation.ReflTransGen (Together s) a b

/-- The invariant of the pass: every word of the processed set occurs in
some line strictly before the scan position. -/
def ScanInv (s : SynFile) (i : Nat) (processed : List String) : Prop :=
  ∀ w ∈ processed, ∃ j, ∃ hj : j < s.length, j < i ∧ w ∈ s[j]

/-- The word occurs in a line of `s` that has at least two distinct words. -/
def Survives (w : String) (s : SynFile) : Prop :=
  ∃ l ∈ s, w ∈ l ∧ ∃ v ∈ l, v ≠ w

/-- No word occurs in two lines at distinct positions. -/
def Disjointed (s : SynFile) : Prop :=
  ∀ j k, ∀ hj : j < s.length, ∀ hk : k < s.length, j ≠ k →
    ∀ w, w ∈ s[j] → w ∉ s[k]

/-- The converged shape: every line has at least two tokens, all of them
distinct, and no word occurs in two different lines. -/
def GoodFile (s : SynFile) : Prop :=
  (∀ l ∈ s, 2 ≤ l.length ∧ l.Nodup) ∧ Disjointed s

/-- `dd` is a possible enumeration of `set(...)` by CPython: it keeps exactly
the distinct elements, each once. -/
def PySetEnum (dd : List String → List String) : Prop :=
  ∀ l, (dd l).Nodup ∧ ∀ w, w ∈ dd l ↔ w ∈ l

/-- A second legitimate set-enumeration order: first occurrences of the
reversed list (distinct words, each once, in another order). -/
def revDedup (l : List String) : List String := pyDedup l.reverse

theorem scanInv_erase {s : SynFile} {i : Nat} {P : List String} (h : i < s.length)
    (hInv : ScanInv s i P) : ScanInv (s.eraseIdx i) (i + 1) P := by
  intro w hw
  obtain ⟨j, hj, hji, hwj⟩ := hInv w hw
  have hlen : (s.eraseIdx i).length = s.length - 1 := List.length_eraseIdx_of_lt h
  have hj' : j < (s.eraseIdx i).length := by omega
  refine ⟨j, hj', by omega, ?_⟩
  rw [List.getElem_eraseIdx]
  rw [dif_pos hji]
  exact hwj

theorem scanInv_keep {s : SynFile} {i : Nat} {P d : List String} (h : i < s.length)
    (hInv : ScanInv s i P) : ScanInv (s.set i d) (i + 1) (P ++ d) := by
  intro w hw
  rcases List.mem_append.mp hw with hw | hw
  · obtain ⟨j, hj, hji, hwj⟩ := hInv w hw
    have hj' : j < (s.set i d).length := by simpa using hj
    refine ⟨j, hj', by omega, ?_⟩
    rw [List.getElem_set_ne (by omega) hj']
    exact hwj
  · have hi' : i < (s.set i d).length := by simpa using h
    exact ⟨i, hi', by omega, by rw [List.getElem_set_self hi']; exact hw⟩

theorem scanInv_merge {s2 : SynFile} {i j : Nat} {g : List String} {Q : List String}
    (hi : i < s2.length) (hj : j < s2.length) (hji : j < i) (hg : s2[i] = g)
    (hInv : ScanInv s2 (i + 1) Q) :
    ScanInv ((s2.set j (s2[j] ++ g)).set i []) (i + 1) Q := by
  have hij : j ≠ i := by omega
  intro w hw
  obtain ⟨k, hk, hki, hwk⟩ := hInv w hw
  have hlen : ((s2.set j (s2[j] ++ g)).set i []).length = s2.length := by simp
  have hj2 : j < ((s2.set j (s2[j] ++ g)).set i []).length := by omega
  have hgj : ((s2.set j (s2[j] ++ g)).set i [])[j] = s2[j] ++ g := by
    rw [List.getElem_set_ne (fun he => hij he.symm) hj2]
    exact List.getElem_set_self (by simpa using hj)
  by_cases hkj : k = j
  · subst hkj
    refine ⟨k, hj2, hki, ?_⟩
    rw [hgj]
    exact List.mem_append_left g hwk
  · by_cases hkii : k = i
    · subst hkii
      refine ⟨j, hj2, by omega, ?_⟩
      rw [hgj]
      exact List.mem_append_right _ (hg ▸ hwk)
    · have hk2 : k < ((s2.set j (s2[j] ++ g)).set i []).length := by omega
      refine ⟨k, hk2, hki, ?_⟩
      rw [List.getElem_set_ne (fun he => hkii he.symm) hk2,
        List.getElem_set_ne (fun he => hkj he.symm) (by simpa using hk)]
      exact hwk

theorem merge_anatomy {s : SynFile} {i : Nat} {P : List String} {w : String} {s3 : SynFile}
    (h : i < s.length) (hInv : ScanInv s i P)
    (hfd : findDup P (pyDedup s[i]) = some w)
    (hsub : substitute_synonyms w (pyDedup s[i]) i (s.set i (pyDedup s[i])) = .ok s3) :
    ∃ j, ∃ hj : j < s.length, j < i ∧ w ∈ s[j] ∧ w ∈ pyDedup s[i] ∧
      s3 = ((s.set i (pyDedup s[i])).set j (s[j] ++ pyDedup s[i])).set i [] := by
  obtain ⟨hwd, hwP⟩ := findDup_found (pyDedup_nodup _) hfd
  obtain ⟨k0, hk0, hk0i, hwk0⟩ := hInv w hwP
  obtain ⟨j, hj', hwj, hprev, hs3⟩ := substitute_spec hsub
  have hk0' : k0 < (s.set i (pyDedup s[i])).length := by simpa using hk0
  have hwk0' : w ∈ (s.set i (pyDedup s[i]))[k0] := by
    rw [List.getElem_set_ne (by omega) hk0']
    exact hwk0
  have hjk0 : ¬ k0 < j := fun hlt => hprev k0 hk0' hlt hwk0'
  have hji : j < i := by omega
  have hjlen : j < s.length := by simpa using hj'
  have hgj : (s.set i (pyDedup s[i]))[j] = s[j] := List.getElem_set_ne (by omega) hj'
  refine ⟨j, hjlen, hji, ?_, hwd, ?_⟩
  · rw [hgj] at hwj
    exact hwj
  · rw [hs3, hgj]

theorem scan_ok (s : SynFile) (i : Nat) (P : List String) (c : Bool) :
    ScanInv s i P → ∃ r, scan pyDedup s i P c = .ok r := by
  induction s, i, P, c using scan.induct pyDedup with
  | case1 s i P c h line hlt ih =>
    intro hInv
    obtain ⟨r, hr⟩ := ih (scanInv_erase h hInv)
    exact ⟨r, by rw [scan_pop h hlt]; exact hr⟩
  | case2 s i P c h line hge line2 changes2 s2 hfd ih =>
    intro hInv
    obtain ⟨r, hr⟩ := ih (scanInv_keep h hInv)
    exact ⟨r, by rw [scan_keep pyDedup h hge hfd]; exact hr⟩
  | case3 s i P c h line hge line2 s2 w hfd e hsub =>
    intro hInv
    exfalso
    obtain ⟨hwd, hwP⟩ := findDup_found (pyDedup_nodup _) hfd
    obtain ⟨k0, hk0, hk0i, hwk0⟩ := hInv w hwP
    have hk0' : k0 < (s.set i (pyDedup s[i])).length := by simpa using hk0
    have hwk0' : w ∈ (s.set i (pyDedup s[i]))[k0] := by
      rw [List.getElem_set_ne (by omega) hk0']
      exact hwk0
    obtain ⟨s2', hs2'⟩ :=
      substitute_success (pyDedup s[i]) i hk0' hwk0'
    rw [hs2'] at hsub
    cases hsub
  | case4 s i P c h line hge line2 s2 w hfd s3 hsub ih =>
    intro hInv
    obtain ⟨j, hj, hji, hwj, hwd, hs3⟩ := merge_anatomy h hInv hfd hsub
    have hInv2 : ScanInv (s.set i (pyDedup s[i])) (i + 1) (P ++ pyDedup s[i]) :=
      scanInv_keep h hInv
    have hi' : i < (s.set i (pyDedup s[i])).length := by simpa using h
    have hj2 : j < (s.set i (pyDedup s[i])).length := by simpa using hj
    have hInv3 : ScanInv s3 (i + 1) (P ++ pyDedup s[i]) := by
      rw [hs3]
      have hgj : (s.set i (pyDedup s[i]))[j] = s[j] := List.getElem_set_ne (by omega) hj2
      rw [← hgj]
      exact scanInv_merge hi' hj2 hji (List.getElem_set_self hi') hInv2
    obtain ⟨r, hr⟩ := ih hInv3
    exact ⟨r, by rw [scan_merge pyDedup h hge hfd hsub]; exact hr⟩
  | case5 s i P c h =>
    intro _
    exact ⟨(s, c), scan_stop h⟩

theorem loop_err {s : SynFile} {e : String} (h : onePass s = .error e) :
    loop s = .error e := by
  rw [loop.eq_def]
  split
  · next e' heq => rw [h] at heq; cases heq; rfl
  · next s' heq => rw [h] at heq; cases heq
  · next s' heq => rw [h] at heq; cases heq

theorem loop_done {s s' : SynFile} (h : onePass s = .ok (s', false)) :
    loop s = .ok s' := by
  rw [loop.eq_def]
  split
  · next e' heq => rw [h] at heq; cases heq
  · next s'' heq => rw [h] at heq; cases heq; rfl
  · next s'' heq => rw [h] at heq; cases heq

theorem loop_again {s s' : SynFile} (h : onePass s = .ok (s', true)) :
    loop s = loop s' := by
  rw [loop.eq_def]
  split
  · next e' heq => rw [h] at heq; cases heq
  · next s'' heq => rw [h] at heq; cases heq
  · next s'' heq => rw [h] at heq; cases heq; rfl

theorem scanInv_nil (s : SynFile) (i : Nat) : ScanInv s i [] := by
  intro w hw
  cases hw

theorem loop_ok (s : SynFile) : ∃ out, loop s = .ok out := by
  induction s using loop.induct with
  | case1 s e h =>
    obtain ⟨r, hr⟩ := scan_ok s 0 [] false (scanInv_nil s 0)
    have h2 : scan pyDedup s 0 [] false = .error e := h
    rw [hr] at h2
    cases h2
  | case2 s s' h => exact ⟨s', loop_done h⟩
  | case3 s s' h ih =>
    obtain ⟨out, hout⟩ := ih
    exact ⟨out, by rw [loop_again h]; exact hout⟩

theorem loopD_pyDedup : ∀ (fuel : Nat) (s : SynFile), mu s < fuel →
    loopD pyDedup fuel s = loop s := by
  intro fuel
  induction fuel with
  | zero => intro s h; omega
  | succ n ih =>
    intro s h
    unfold loopD
    cases hp : scan pyDedup s 0 [] false with
    | error e => rw [loop_err hp]
    | ok r =>
      obtain ⟨s', flag⟩ := r
      cases flag
      · rw [loop_done hp]
      · rw [loop_again hp]
        have hmu : mu s' < mu s := (scan_mu s 0 [] false (s', true) hp).2 rfl rfl
        exact ih s' (by omega)

/-- What a pass that flags no change certifies about the lines from the scan
position on: at least two tokens each, no duplicate inside a line, no word in
the processed set, and pairwise disjoint word sets. -/
def PassFix (s : SynFile) (i : Nat) (P : List String) : Prop :=
  ∀ j, ∀ hj : j < s.length, i ≤ j →
    2 ≤ s[j].length ∧ s[j].Nodup ∧ (∀ w ∈ s[j], w ∉ P) ∧
    ∀ k, ∀ hk : k < s.length, i ≤ k → k ≠ j → ∀ w, w ∈ s[j] → w ∉ s[k]

theorem passFix_extend {s : SynFile} {i : Nat} {P : List String} (h : i < s.length)
    (h1 : 2 ≤ s[i].length) (h2 : s[i].Nodup) (h3 : ∀ w ∈ s[i], w ∉ P)
    (h4 : PassFix s (i + 1) (P ++ s[i])) : PassFix s i P := by
  intro j hj hij
  rcases Nat.lt_or_ge i j with hlt | hge
  · obtain ⟨g1, g2, g3, g4⟩ := h4 j hj hlt
    refine ⟨g1, g2, fun w hw hP => g3 w hw (List.mem_append_left _ hP), ?_⟩
    intro k hk hik hkj w hw
    rcases Nat.lt_or_ge i k with hltk | hgek
    · exact g4 k hk hltk hkj w hw
    · have hki : k = i := by omega
      subst hki
      intro hwk
      exact g3 w hw (List.mem_append_right _ hwk)
  · have hji : j = i := by omega
    subst j
    refine ⟨h1, h2, h3, ?_⟩
    intro k hk hik hkj w hw hwk
    have hkj' : i + 1 ≤ k := by omega
    obtain ⟨_, _, g3, _⟩ := h4 k hk hkj'
    exact g3 w hwk (List.mem_append_right _ hw)

theorem passFix_restrict {s : SynFile} {i : Nat} {P : List String} (h : i < s.length)
    (hp : PassFix s i P) : PassFix s (i + 1) (P ++ s[i]) := by
  intro j hj hij
  obtain ⟨g1, g2, g3, g4⟩ := hp j hj (by omega)
  refine ⟨g1, g2, fun w hw hP => ?_, fun k hk hik hkj w hw => g4 k hk (by omega) hkj w hw⟩
  rcases List.mem_append.mp hP with hP | hP
  · exact g3 w hw hP
  · exact g4 i h (le_refl i) (by omega) w hw hP

theorem scan_noChange (s : SynFile) (i : Nat) (P : List String) (c : Bool) :
    ∀ s', scan pyDedup s i P c = .ok (s', false) →
      c = false ∧ s' = s ∧ PassFix s i P := by
  induction s, i, P, c using scan.induct pyDedup with
  | case1 s i P c h line hlt ih =>
    intro s' hr
    rw [scan_pop h hlt] at hr
    obtain ⟨hc, -, -⟩ := ih s' hr
    cases hc
  | case2 s i P c h line hge line2 changes2 s2 hfd ih =>
    intro s' hr
    rw [scan_keep pyDedup h hge hfd] at hr
    have hih := ih s' hr
    obtain ⟨hc2, hs', hpf⟩ := hih
    have hc2' : (c || ((pyDedup s[i]).length != s[i].length)) = false := hc2
    have hc : c = false := by
      rcases Bool.or_eq_false_iff.mp hc2' with ⟨h1, _⟩
      exact h1
    have hlen : (pyDedup s[i]).length = s[i].length := by
      rcases Bool.or_eq_false_iff.mp hc2' with ⟨_, h2⟩
      simpa using h2
    have heq : pyDedup s[i] = s[i] := pyDedup_eq_of_len hlen
    have es : s.set i (pyDedup s[i]) = s := by rw [heq]; exact set_self_eq s i h
    have hs2 : s' = s.set i (pyDedup s[i]) := hs'
    rw [es] at hs2
    have hpf2 : PassFix (s.set i (pyDedup s[i])) (i + 1) (P ++ pyDedup s[i]) := hpf
    rw [es, heq] at hpf2
    have hnd : s[i].Nodup := heq ▸ pyDedup_nodup s[i]
    have hP : ∀ w ∈ s[i], w ∉ P := by
      intro w hw
      exact findDup_none_mem hfd w (heq ▸ hw : w ∈ pyDedup s[i])
    have hge' : ¬ s[i].length < 2 := hge
    exact ⟨hc, hs2, passFix_extend h (by omega) hnd hP hpf2⟩
  | case3 s i P c h line hge line2 s2 w hfd e hsub =>
    intro s' hr
    rw [scan_merge_err pyDedup h hge hfd hsub] at hr
    cases hr
  | case4 s i P c h line hge line2 s2 w hfd s3 hsub ih =>
    intro s' hr
    rw [scan_merge pyDedup h hge hfd hsub] at hr
    obtain ⟨hc, -, -⟩ := ih s' hr
    cases hc
  | case5 s i P c h =>
    intro s' hr
    rw [scan_stop h] at hr
    cases hr
    refine ⟨rfl, rfl, ?_⟩
    intro j hj hij
    omega

theorem goodFile_of_passFix {s : SynFile} (h : PassFix s 0 []) : GoodFile s := by
  constructor
  · intro l hl
    obtain ⟨j, hj, rfl⟩ := List.mem_iff_getElem.mp hl
    obtain ⟨g1, g2, -, -⟩ := h j hj (Nat.zero_le j)
    exact ⟨g1, g2⟩
  · intro j k hj hk hjk w hwj
    obtain ⟨-, -, -, g4⟩ := h j hj (Nat.zero_le j)
    exact g4 k hk (Nat.zero_le k) (fun he => hjk he.symm) w hwj

theorem passFix_of_goodFile {s : SynFile} (h : GoodFile s) : PassFix s 0 [] := by
  intro j hj _
  have hmem : s[j] ∈ s := List.getElem_mem hj
  obtain ⟨g1, g2⟩ := h.1 s[j] hmem
  refine ⟨g1, g2, by simp, ?_⟩
  intro k hk _ hkj w hwj
  exact h.2 j k hj hk (fun he => hkj he.symm) w hwj

theorem loop_good (s : SynFile) : ∀ out, loop s = .ok out → GoodFile out := by
  induction s using loop.induct with
  | case1 s e h =>
    intro out hout
    rw [loop_err h] at hout
    cases hout
  | case2 s s' h =>
    intro out hout
    rw [loop_done h] at hout
    cases hout
    obtain ⟨-, hs, hpf⟩ := scan_noChange s 0 [] false s' h
    subst hs
    exact goodFile_of_passFix hpf
  | case3 s s' h ih =>
    intro out hout
    rw [loop_again h] at hout
    exact ih out hout

theorem scan_fix (s : SynFile) (i : Nat) (P : List String) (c : Bool) :
    c = false → PassFix s i P → scan pyDedup s i P c = .ok (s, false) := by
  induction s, i, P, c using scan.induct pyDedup with
  | case1 s i P c h line hlt ih =>
    intro _ hpf
    obtain ⟨g1, -, -, -⟩ := hpf i h (le_refl i)
    have hlt' : s[i].length < 2 := hlt
    omega
  | case2 s i P c h line hge line2 changes2 s2 hfd ih =>
    intro hc hpf
    subst hc
    obtain ⟨g1, g2, g3, g4⟩ := hpf i h (le_refl i)
    have heq : pyDedup s[i] = s[i] := pyDedup_eq_self g2
    have es : s.set i (pyDedup s[i]) = s := by rw [heq]; exact set_self_eq s i h
    have hc2 : (false || ((pyDedup s[i]).length != s[i].length)) = false := by
      rw [heq]; simp
    have hpf2 : PassFix (s.set i (pyDedup s[i])) (i + 1) (P ++ pyDedup s[i]) := by
      rw [es, heq]
      exact passFix_restrict h hpf
    have hrec := ih hc2 hpf2
    rw [scan_keep pyDedup h hge hfd, hrec]
    show Except.ok (s.set i (pyDedup s[i]), false) = Except.ok (s, false)
    rw [es]
  | case3 s i P c h line hge line2 s2 w hfd e hsub =>
    intro hc hpf
    exfalso
    obtain ⟨g1, g2, g3, -⟩ := hpf i h (le_refl i)
    have heq : pyDedup s[i] = s[i] := pyDedup_eq_self g2
    have : findDup P (pyDedup s[i]) = none := by
      rw [heq]
      exact findDup_not_found g2 g3
    rw [this] at hfd
    cases hfd
  | case4 s i P c h line hge line2 s2 w hfd s3 hsub ih =>
    intro hc hpf
    exfalso
    obtain ⟨g1, g2, g3, -⟩ := hpf i h (le_refl i)
    have heq : pyDedup s[i] = s[i] := pyDedup_eq_self g2
    have : findDup P (pyDedup s[i]) = none := by
      rw [heq]
      exact findDup_not_found g2 g3
    rw [this] at hfd
    cases hfd
  | case5 s i P c h =>
    intro hc _
    subst hc
    exact scan_stop h

theorem loop_fix {s : SynFile} (h : GoodFile s) : loop s = .ok s :=
  loop_done (scan_fix s 0 [] false rfl (passFix_of_goodFile h))

theorem subst_no_error {s : SynFile} {i : Nat} {P : List String} {w : String}
    (h : i < s.length) (hInv : ScanInv s i P)
    (hfd : findDup P (pyDedup s[i]) = some w) :
    ∀ e, substitute_synonyms w (pyDedup s[i]) i (s.set i (pyDedup s[i])) = .error e → False := by
  intro e hsub
  obtain ⟨hwd, hwP⟩ := findDup_found (pyDedup_nodup _) hfd
  obtain ⟨k0, hk0, hk0i, hwk0⟩ := hInv w hwP
  have hk0' : k0 < (s.set i (pyDedup s[i])).length := by simpa using hk0
  have hwk0' : w ∈ (s.set i (pyDedup s[i]))[k0] := by
    rw [List.getElem_set_ne (by omega) hk0']
    exact hwk0
  obtain ⟨s2', hs2'⟩ := substitute_success (pyDedup s[i]) i hk0' hwk0'
  rw [hs2'] at hsub
  cases hsub

theorem scanInv_after_merge {s : SynFile} {i : Nat} {P : List String} {w : String}
    {s3 : SynFile} (h : i < s.length) (hInv : ScanInv s i P)
    (hfd : findDup P (pyDedup s[i]) = some w)
    (hsub : substitute_synonyms w (pyDedup s[i]) i (s.set i (pyDedup s[i])) = .ok s3) :
    ScanInv s3 (i + 1) (P ++ pyDedup s[i]) := by
  obtain ⟨j, hj, hji, hwj, hwd, hs3⟩ := merge_anatomy h hInv hfd hsub
  have hi' : i < (s.set i (pyDedup s[i])).length := by simpa using h
  have hj2 : j < (s.set i (pyDedup s[i])).length := by simpa using hj
  rw [hs3]
  have hgj : (s.set i (pyDedup s[i]))[j] = s[j] := List.getElem_set_ne (by omega) hj2
  rw [← hgj]
  exact scanInv_merge hi' hj2 hji (List.getElem_set_self hi')
    (scanInv_keep h hInv)

theorem conn_of_together_imp {s1 s2 : SynFile}
    (himp : ∀ a b, Together s1 a b → Conn s2 a b) :
    ∀ a b, Conn s1 a b → Conn s2 a b := by
  intro a b h
  induction h with
  | refl => exact Relation.ReflTransGen.refl
  | tail h1 h2 ih => exact ih.trans (himp _ _ h2)

theorem together_idx {s : SynFile} {a b : String} :
    Together s a b ↔ ∃ k, ∃ hk : k < s.length, a ∈ s[k] ∧ b ∈ s[k] := by
  constructor
  · rintro ⟨l, hl, ha, hb⟩
    obtain ⟨k, hk, rfl⟩ := List.mem_iff_getElem.mp hl
    exact ⟨k, hk, ha, hb⟩
  · rintro ⟨k, hk, ha, hb⟩
    exact ⟨s[k], List.getElem_mem hk, ha, hb⟩

theorem two_mem_two_le {l : List String} {w v : String} (hw : w ∈ l) (hv : v ∈ l)
    (hvw : v ≠ w) : 2 ≤ l.length := by
  match l with
  | [] => cases hw
  | [x] =>
    simp at hw hv
    subst hw
    subst hv
    exact absurd rfl hvw
  | x :: y :: t => simp

theorem conn_erase {s : SynFile} {i : Nat} (h : i < s.length) (hdeg : s[i].length < 2) :
    ∀ a b, Conn (s.eraseIdx i) a b ↔ Conn s a b := by
  intro a b
  constructor
  · refine conn_of_together_imp ?_ a b
    rintro x y ⟨l, hl, hx, hy⟩
    exact Relation.ReflTransGen.single
      ⟨l, (List.eraseIdx_sublist s i).subset hl, hx, hy⟩
  · refine conn_of_together_imp ?_ a b
    intro x y hxy
    obtain ⟨k, hk, hx, hy⟩ := together_idx.mp hxy
    by_cases hki : k = i
    · subst hki
      have hxy2 : x = y := by
        rcases hcase : s[k] with _ | ⟨z, t⟩
        · rw [hcase] at hx
          cases hx
        · rcases t with _ | ⟨z2, t2⟩
          · rw [hcase] at hx hy
            simp at hx hy
            rw [hx, hy]
          · rw [hcase] at hdeg
            simp at hdeg
            omega
      rw [hxy2]
      exact Relation.ReflTransGen.refl
    · have hlen : (s.eraseIdx i).length = s.length - 1 := List.length_eraseIdx_of_lt h
      refine Relation.ReflTransGen.single (together_idx.mpr ?_)
      by_cases hki2 : k < i
      · refine ⟨k, by omega, ?_⟩
        rw [List.getElem_eraseIdx, dif_pos hki2]
        exact ⟨hx, hy⟩
      · have hik : i < k := by omega
        refine ⟨k - 1, by omega, ?_, ?_⟩
        · rw [List.getElem_eraseIdx, dif_neg (by omega)]
          convert hx using 2
          omega
        · rw [List.getElem_eraseIdx, dif_neg (by omega)]
          convert hy using 2
          omega

theorem conn_set {s : SynFile} {i : Nat} {d : List String} (h : i < s.length)
    (hmem : ∀ x, x ∈ d ↔ x ∈ s[i]) :
    ∀ a b, Conn (s.set i d) a b ↔ Conn s a b := by
  intro a b
  constructor
  · refine conn_of_together_imp ?_ a b
    rintro x y ⟨l, hl, hx, hy⟩
    rcases List.mem_or_eq_of_mem_set hl with hl2 | rfl
    · exact Relation.ReflTransGen.single ⟨l, hl2, hx, hy⟩
    · exact Relation.ReflTransGen.single
        ⟨s[i], List.getElem_mem h, (hmem x).mp hx, (hmem y).mp hy⟩
  · refine conn_of_together_imp ?_ a b
    intro x y hxy
    obtain ⟨k, hk, hx, hy⟩ := together_idx.mp hxy
    have hk' : k < (s.set i d).length := by simpa using hk
    by_cases hki : k = i
    · subst hki
      refine Relation.ReflTransGen.single (together_idx.mpr ⟨k, hk', ?_⟩)
      rw [List.getElem_set_self hk']
      exact ⟨(hmem x).mpr hx, (hmem y).mpr hy⟩
    · refine Relation.ReflTransGen.single (together_idx.mpr ⟨k, hk', ?_⟩)
      rw [List.getElem_set_ne (fun he => hki he.symm) hk']
      exact ⟨hx, hy⟩

theorem conn_merge {s : SynFile} {i j : Nat} {w : String} (hi : i < s.length)
    (hj : j < s.length) (hij : j ≠ i) (hwj : w ∈ s[j]) (hwi : w ∈ s[i]) :
    ∀ a b, Conn ((s.set j (s[j] ++ s[i])).set i []) a b ↔ Conn s a b := by
  have hlen1 : (s.set j (s[j] ++ s[i])).length = s.length := by simp
  have hj1 : j < (s.set j (s[j] ++ s[i])).length := by omega
  have hj3 : j < ((s.set j (s[j] ++ s[i])).set i []).length := by simp; omega
  have hgj : ((s.set j (s[j] ++ s[i])).set i [])[j] = s[j] ++ s[i] := by
    rw [List.getElem_set_ne (fun he => hij he.symm) hj3]
    exact List.getElem_set_self hj1
  intro a b
  constructor
  · refine conn_of_together_imp ?_ a b
    rintro x y ⟨l, hl, hx, hy⟩
    rcases List.mem_or_eq_of_mem_set hl with hl2 | rfl
    · rcases List.mem_or_eq_of_mem_set hl2 with hl3 | rfl
      · exact Relation.ReflTransGen.single ⟨l, hl3, hx, hy⟩
      · have hcx : Conn s x w := by
          rcases List.mem_append.mp hx with hx2 | hx2
          · exact Relation.ReflTransGen.single (together_idx.mpr ⟨j, hj, hx2, hwj⟩)
          · exact Relation.ReflTransGen.single (together_idx.mpr ⟨i, hi, hx2, hwi⟩)
        have hcy : Conn s w y := by
          rcases List.mem_append.mp hy with hy2 | hy2
          · exact Relation.ReflTransGen.single (together_idx.mpr ⟨j, hj, hwj, hy2⟩)
          · exact Relation.ReflTransGen.single (together_idx.mpr ⟨i, hi, hwi, hy2⟩)
        exact hcx.trans hcy
    · cases hx
  · refine conn_of_together_imp ?_ a b
    intro x y hxy
    obtain ⟨k, hk, hx, hy⟩ := together_idx.mp hxy
    have hk3 : k < ((s.set j (s[j] ++ s[i])).set i []).length := by simp; omega
    by_cases hki : k = i
    · subst hki
      refine Relation.ReflTransGen.single (together_idx.mpr ⟨j, hj3, ?_⟩)
      rw [hgj]
      exact ⟨List.mem_append_right _ hx, List.mem_append_right _ hy⟩
    · by_cases hkj : k = j
      · subst hkj
        refine Relation.ReflTransGen.single (together_idx.mpr ⟨k, hj3, ?_⟩)
        rw [hgj]
        exact ⟨List.mem_append_left _ hx, List.mem_append_left _ hy⟩
      · refine Relation.ReflTransGen.single (together_idx.mpr ⟨k, hk3, ?_⟩)
        rw [List.getElem_set_ne (fun he => hki he.symm) hk3,
          List.getElem_set_ne (fun he => hkj he.symm) (by simpa using hk)]
        exact ⟨hx, hy⟩

theorem scan_conn (s : SynFile) (i : Nat) (P : List String) (c : Bool) :
    ScanInv s i P → ∀ r, scan pyDedup s i P c = .ok r →
      ∀ a b, Conn r.1 a b ↔ Conn s a b := by
  induction s, i, P, c using scan.induct pyDedup with
  | case1 s i P c h line hlt ih =>
    intro hInv r hr a b
    rw [scan_pop h hlt] at hr
    have hlt' : s[i].length < 2 := hlt
    exact (ih (scanInv_erase h hInv) r hr a b).trans (conn_erase h hlt' a b)
  | case2 s i P c h line hge line2 changes2 s2 hfd ih =>
    intro hInv r hr a b
    rw [scan_keep pyDedup h hge hfd] at hr
    exact (ih (scanInv_keep h hInv) r hr a b).trans
      (conn_set h (fun x => mem_pyDedup) a b)
  | case3 s i P c h line hge line2 s2 w hfd e hsub =>
    intro hInv r hr a b
    exact absurd hsub (by simpa using subst_no_error h hInv hfd e)
  | case4 s i P c h line hge line2 s2 w hfd s3 hsub ih =>
    intro hInv r hr a b
    rw [scan_merge pyDedup h hge hfd hsub] at hr
    have h1 := ih (scanInv_after_merge h hInv hfd hsub) r hr a b
    obtain ⟨j, hj, hji, hwj, hwd, hs3⟩ := merge_anatomy h hInv hfd hsub
    have hi' : i < (s.set i (pyDedup s[i])).length := by simpa using h
    have hj2 : j < (s.set i (pyDedup s[i])).length := by simpa using hj
    have hgi : (s.set i (pyDedup s[i]))[i] = pyDedup s[i] := List.getElem_set_self hi'
    have hgj : (s.set i (pyDedup s[i]))[j] = s[j] := List.getElem_set_ne (by omega) hj2
    have h2 : ∀ a b, Conn s3 a b ↔ Conn (s.set i (pyDedup s[i])) a b := by
      have hwj' : w ∈ (s.set i (pyDedup s[i]))[j] := by rw [hgj]; exact hwj
      have hwi' : w ∈ (s.set i (pyDedup s[i]))[i] := by rw [hgi]; exact hwd
      have hcm := conn_merge hi' hj2 (by omega) hwj' hwi'
      rw [hgj, hgi] at hcm
      rw [hs3]
      exact hcm
    exact (h1.trans (h2 a b)).trans (conn_set h (fun x => mem_pyDedup) a b)
  | case5 s i P c h =>
    intro hInv r hr a b
    rw [scan_stop h] at hr
    cases hr
    rfl

theorem loop_conn (s : SynFile) : ∀ out, loop s = .ok out →
    ∀ a b, Conn out a b ↔ Conn s a b := by
  induction s using loop.induct with
  | case1 s e h =>
    intro out hout
    rw [loop_err h] at hout
    cases hout
  | case2 s s' h =>
    intro out hout
    rw [loop_done h] at hout
    cases hout
    exact scan_conn s 0 [] false (scanInv_nil s 0) (s', false) h
  | case3 s s' h ih =>
    intro out hout
    rw [loop_again h] at hout
    intro a b
    exact (ih out hout a b).trans (scan_conn s 0 [] false (scanInv_nil s 0) (s', true) h a b)

theorem conn_collapse {s : SynFile} (hd : Disjointed s) :
    ∀ a b, Conn s a b → a = b ∨ Together s a b := by
  intro a b h
  induction h with
  | refl => exact Or.inl rfl
  | tail h1 h2 ih =>
    rename_i c b'
    rcases ih with rfl | hac
    · exact Or.inr h2
    · obtain ⟨k1, hk1, hak1, hck1⟩ := together_idx.mp hac
      obtain ⟨k2, hk2, hck2, hbk2⟩ := together_idx.mp h2
      have hkk : k1 = k2 := by
        by_contra hne
        exact hd k1 k2 hk1 hk2 hne c hck1 hck2
      subst hkk
      exact Or.inr (together_idx.mpr ⟨k1, hk1, hak1, hbk2⟩)

theorem surv_idx {s : SynFile} {u : String} :
    Survives u s ↔ ∃ k, ∃ hk : k < s.length, u ∈ s[k] ∧ ∃ v ∈ s[k], v ≠ u := by
  constructor
  · rintro ⟨l, hl, hu, v, hv, hvu⟩
    obtain ⟨k, hk, rfl⟩ := List.mem_iff_getElem.mp hl
    exact ⟨k, hk, hu, v, hv, hvu⟩
  · rintro ⟨k, hk, hu, v, hv, hvu⟩
    exact ⟨s[k], List.getElem_mem hk, hu, v, hv, hvu⟩

theorem surv_erase {s : SynFile} {i : Nat} (h : i < s.length) (hdeg : s[i].length < 2) :
    ∀ u, Survives u (s.eraseIdx i) ↔ Survives u s := by
  intro u
  constructor
  · rintro ⟨l, hl, hu, v, hv, hvu⟩
    exact ⟨l, (List.eraseIdx_sublist s i).subset hl, hu, v, hv, hvu⟩
  · intro hs
    obtain ⟨k, hk, hu, v, hv, hvu⟩ := surv_idx.mp hs
    by_cases hki : k = i
    · subst hki
      have := two_mem_two_le hu hv hvu
      omega
    · have hlen : (s.eraseIdx i).length = s.length - 1 := List.length_eraseIdx_of_lt h
      refine surv_idx.mpr ?_
      by_cases hki2 : k < i
      · refine ⟨k, by omega, ?_, ?_⟩
        · rw [List.getElem_eraseIdx, dif_pos hki2]
          exact hu
        · rw [List.getElem_eraseIdx, dif_pos hki2]
          exact ⟨v, hv, hvu⟩
      · have hik : i < k := by omega
        refine ⟨k - 1, by omega, ?_, ?_⟩
        · rw [List.getElem_eraseIdx, dif_neg (by omega)]
          convert hu using 2
          omega
        · rw [List.getElem_eraseIdx, dif_neg (by omega)]
          refine ⟨v, ?_, hvu⟩
          convert hv using 2
          omega

theorem surv_set {s : SynFile} {i : Nat} {d : List String} (h : i < s.length)
    (hmem : ∀ x, x ∈ d ↔ x ∈ s[i]) :
    ∀ u, Survives u (s.set i d) ↔ Survives u s := by
  intro u
  constructor
  · rintro ⟨l, hl, hu, v, hv, hvu⟩
    rcases List.mem_or_eq_of_mem_set hl with hl2 | rfl
    · exact ⟨l, hl2, hu, v, hv, hvu⟩
    · exact ⟨s[i], List.getElem_mem h, (hmem u).mp hu, v, (hmem v).mp hv, hvu⟩
  · intro hs
    obtain ⟨k, hk, hu, v, hv, hvu⟩ := surv_idx.mp hs
    have hk' : k < (s.set i d).length := by simpa using hk
    by_cases hki : k = i
    · subst hki
      refine surv_idx.mpr ⟨k, hk', ?_, v, ?_, hvu⟩
      · rw [List.getElem_set_self hk']
        exact (hmem u).mpr hu
      · rw [List.getElem_set_self hk']
        exact (hmem v).mpr hv
    · refine surv_idx.mpr ⟨k, hk', ?_, v, ?_, hvu⟩
      · rw [List.getElem_set_ne (fun he => hki he.symm) hk']
        exact hu
      · rw [List.getElem_set_ne (fun he => hki he.symm) hk']
        exact hv

theorem surv_merge {s : SynFile} {i j : Nat} {w : String} (hi : i < s.length)
    (hj : j < s.length) (hij : j ≠ i) (hwj : w ∈ s[j]) (hwi : w ∈ s[i]) :
    ∀ u, Survives u ((s.set j (s[j] ++ s[i])).set i []) ↔ Survives u s := by
  have hlen1 : (s.set j (s[j] ++ s[i])).length = s.length := by simp
  have hj1 : j < (s.set j (s[j] ++ s[i])).length := by omega
  have hj3 : j < ((s.set j (s[j] ++ s[i])).set i []).length := by simp; omega
  have hgj : ((s.set j (s[j] ++ s[i])).set i [])[j] = s[j] ++ s[i] := by
    rw [List.getElem_set_ne (fun he => hij he.symm) hj3]
    exact List.getElem_set_self hj1
  intro u
  constructor
  · rintro ⟨l, hl, hu, v, hv, hvu⟩
    rcases List.mem_or_eq_of_mem_set hl with hl2 | rfl
    · rcases List.mem_or_eq_of_mem_set hl2 with hl3 | rfl
      · exact ⟨l, hl3, hu, v, hv, hvu⟩
      · rcases List.mem_append.mp hu with hu2 | hu2 <;>
          rcases List.mem_append.mp hv with hv2 | hv2
        · exact surv_idx.mpr ⟨j, hj, hu2, v, hv2, hvu⟩
        · by_cases huw : u = w
          · subst huw
            exact surv_idx.mpr ⟨i, hi, hwi, v, hv2, hvu⟩
          · exact surv_idx.mpr ⟨j, hj, hu2, w, hwj, fun he => huw he.symm⟩
        · by_cases huw : u = w
          · subst huw
            exact surv_idx.mpr ⟨j, hj, hwj, v, hv2, hvu⟩
          · exact surv_idx.mpr ⟨i, hi, hu2, w, hwi, fun he => huw he.symm⟩
        · exact surv_idx.mpr ⟨i, hi, hu2, v, hv2, hvu⟩
    · cases hu
  · intro hs
    obtain ⟨k, hk, hu, hv⟩ := surv_idx.mp hs
    have hk3 : k < ((s.set j (s[j] ++ s[i])).set i []).length := by simp; omega
    by_cases hki : k = i
    · subst hki
      refine surv_idx.mpr ⟨j, hj3, ?_⟩
      rw [hgj]
      obtain ⟨v, hv2, hvu⟩ := hv
      exact ⟨List.mem_append_right _ hu, v, List.mem_append_right _ hv2, hvu⟩
    · by_cases hkj : k = j
      · subst hkj
        refine surv_idx.mpr ⟨k, hj3, ?_⟩
        rw [hgj]
        obtain ⟨v, hv2, hvu⟩ := hv
        exact ⟨List.mem_append_left _ hu, v, List.mem_append_left _ hv2, hvu⟩
      · refine surv_idx.mpr ⟨k, hk3, ?_⟩
        rw [List.getElem_set_ne (fun he => hki he.symm) hk3,
          List.getElem_set_ne (fun he => hkj he.symm) (by simpa using hk)]
        exact ⟨hu, hv⟩

theorem scan_surv (s : SynFile) (i : Nat) (P : List String) (c : Bool) :
    ScanInv s i P → ∀ r, scan pyDedup s i P c = .ok r →
      ∀ u, Survives u r.1 ↔ Survives u s := by
  induction s, i, P, c using scan.induct pyDedup with
  | case1 s i P c h line hlt ih =>
    intro hInv r hr u
    rw [scan_pop h hlt] at hr
    have hlt' : s[i].length < 2 := hlt
    exact (ih (scanInv_erase h hInv) r hr u).trans (surv_erase h hlt' u)
  | case2 s i P c h line hge line2 changes2 s2 hfd ih =>
    intro hInv r hr u
    rw [scan_keep pyDedup h hge hfd] at hr
    exact (ih (scanInv_keep h hInv) r hr u).trans
      (surv_set h (fun x => mem_pyDedup) u)
  | case3 s i P c h line hge line2 s2 w hfd e hsub =>
    intro hInv r hr u
    exact absurd hsub (by simpa using subst_no_error h hInv hfd e)
  | case4 s i P c h line hge line2 s2 w hfd s3 hsub ih =>
    intro hInv r hr u
    rw [scan_merge pyDedup h hge hfd hsub] at hr
    have h1 := ih (scanInv_after_merge h hInv hfd hsub) r hr u
    obtain ⟨j, hj, hji, hwj, hwd, hs3⟩ := merge_anatomy h hInv hfd hsub
    have hi' : i < (s.set i (pyDedup s[i])).length := by simpa using h
    have hj2 : j < (s.set i (pyDedup s[i])).length := by simpa using hj
    have hgi : (s.set i (pyDedup s[i]))[i] = pyDedup s[i] := List.getElem_set_self hi'
    have hgj : (s.set i (pyDedup s[i]))[j] = s[j] := List.getElem_set_ne (by omega) hj2
    have h2 : ∀ u, Survives u s3 ↔ Survives u (s.set i (pyDedup s[i])) := by
      have hwj' : w ∈ (s.set i (pyDedup s[i]))[j] := by rw [hgj]; exact hwj
      have hwi' : w ∈ (s.set i (pyDedup s[i]))[i] := by rw [hgi]; exact hwd
      have hcm := surv_merge hi' hj2 (by omega) hwj' hwi'
      rw [hgj, hgi] at hcm
      rw [hs3]
      exact hcm
    exact (h1.trans (h2 u)).trans (surv_set h (fun x => mem_pyDedup) u)
  | case5 s i P c h =>
    intro hInv r hr u
    rw [scan_stop h] at hr
    cases hr
    rfl

theorem loop_surv (s : SynFile) : ∀ out, loop s = .ok out →
    ∀ u, Survives u out ↔ Survives u s := by
  induction s using loop.induct with
  | case1 s e h =>
    intro out hout
    rw [loop_err h] at hout
    cases hout
  | case2 s s' h =>
    intro out hout
    rw [loop_done h] at hout
    cases hout
    exact scan_surv s 0 [] false (scanInv_nil s 0) (s', false) h
  | case3 s s' h ih =>
    intro out hout
    rw [loop_again h] at hout
    intro u
    exact (ih out hout u).trans (scan_surv s 0 [] false (scanInv_nil s 0) (s', true) h u)

theorem group_synonyms_sep {name : String} {sep : Char} {lines : List String}
    (h : pickSep name = .ok sep) :
    group_synonyms name lines = loop (initFile sep lines) := by
  unfold group_synonyms
  rw [h]

theorem group_synonyms_file_sep {name : String} {sep : Char} {lines : List String}
    (h : pickSep name = .ok sep) :
    group_synonyms_file name lines = (loop (initFile sep lines)).map (writeBack sep) := by
  unfold group_synonyms_file
  rw [h]

theorem group_synonymsD_sep {dd : List String → List String} {fuel : Nat} {name : String}
    {sep : Char} {lines : List String} (h : pickSep name = .ok sep) :
    group_synonymsD dd fuel name lines =
      (loopD dd fuel (initFile sep lines)).map (writeBack sep) := by
  unfold group_synonymsD
  rw [h]

theorem exists_other {l : List String} {a : String} (hnd : l.Nodup) (hlen : 2 ≤ l.length)
    (ha : a ∈ l) : ∃ b ∈ l, b ≠ a := by
  match l with
  | [] => cases ha
  | [x] => simp at hlen
  | x :: y :: t =>
    by_cases hax : a = x
    · subst hax
      refine ⟨y, by simp, fun he => ?_⟩
      have := List.nodup_cons.mp hnd
      exact this.1 (he ▸ List.mem_cons_self y t)
    · exact ⟨x, by simp, fun he => hax he.symm⟩

theorem csv_tsv_exclusive (name : String) (h1 : pyEndsWith name ".csv" = true)
    (h2 : pyEndsWith name ".tsv" = true) : False := by
  unfold pyEndsWith at h1 h2
  rw [List.isSuffixOf_iff_suffix] at h1 h2
  obtain ⟨u, hu⟩ := h1
  obtain ⟨v, hv⟩ := h2
  have hlen : (".csv".data).length = (".tsv".data).length := by decide
  have heq : (".csv".data) = (".tsv".data) :=
    List.append_inj_right' (hu.trans hv.symm) hlen
  have : (".csv".data) ≠ (".tsv".data) := by decide
  exact this heq

theorem pickSep_csv {name : String} (h : pyEndsWith name ".csv" = true) :
    pickSep name = .ok ',' := by
  unfold pickSep
  rw [if_pos h]

theorem pickSep_tsv {name : String} (h : pyEndsWith name ".tsv" = true) :
    pickSep name = .ok '\t' := by
  have hcsv : ¬ pyEndsWith name ".csv" = true :=
    fun hc => csv_tsv_exclusive name hc h
  unfold pickSep
  rw [if_neg hcsv, if_pos h]

theorem pickSep_bad {name : String} (h1 : pyEndsWith name ".csv" = false)
    (h2 : pyEndsWith name ".tsv" = false) :
    pickSep name =
      .error (name ++ " is an invalid file extension. Only .csv and .tsv files are allowed") := by
  unfold pickSep
  rw [if_neg (by simp [h1]), if_neg (by simp [h2])]

theorem pickSep_error_msg {name : String} {e : String} (h : pickSep name = .error e) :
    e = name ++ " is an invalid file extension. Only .csv and .tsv files are allowed" := by
  unfold pickSep at h
  by_cases h1 : pyEndsWith name ".csv" = true
  · rw [if_pos h1] at h
    cases h
  · rw [if_neg h1] at h
    by_cases h2 : pyEndsWith name ".tsv" = true
    · rw [if_pos h2] at h
      cases h
    · rw [if_neg h2] at h
      cases h
      rfl

theorem loop_terminates (s : SynFile) :
    ∃ n out, passes n s = .ok (out, false) ∧ loop s = .ok out := by
  generalize hm : mu s = m
  induction m using Nat.strong_induction_on generalizing s with
  | _ m ih =>
    obtain ⟨⟨s', flag⟩, hr⟩ := scan_ok s 0 [] false (scanInv_nil s 0)
    have hr' : onePass s = .ok (s', flag) := hr
    cases flag
    · refine ⟨1, s', ?_, loop_done hr'⟩
      unfold passes
      rw [hr']
    · have hmu : mu s' < mu s := (scan_mu s 0 [] false (s', true) hr).2 rfl rfl
      obtain ⟨n, out, hp, hl⟩ := ih (mu s') (by omega) s' rfl
      refine ⟨n + 1, out, ?_, by rw [loop_again hr']; exact hl⟩
      unfold passes
      rw [hr']
      exact hp

theorem revDedup_enum : PySetEnum revDedup := by
  intro l
  refine ⟨pyDedup_nodup _, fun w => ?_⟩
  unfold revDedup
  rw [mem_pyDedup, List.mem_reverse]

theorem eval_run_cats :
    group_synonyms "s.csv" ["cat,feline\n", "dog,canine\n", "feline,animal\n"] =
      .ok [["cat", "feline", "animal"], ["dog", "canine"]] := by
  have hinit : initFile ',' ["cat,feline\n", "dog,canine\n", "feline,animal\n"] =
      [["cat", "feline"], ["dog", "canine"], ["feline", "animal"]] := by decide
  have hp1 : onePass [["cat", "feline"], ["dog", "canine"], ["feline", "animal"]] =
      .ok ([["cat", "feline", "feline", "animal"], ["dog", "canine"], []], true) := by
    unfold onePass
    simp [scan.eq_def, pyDedup, pyDedupAux, findDup, substitute_synonyms, firstIdx]
  have hp2 : onePass [["cat", "feline", "feline", "animal"], ["dog", "canine"], []] =
      .ok ([["cat", "feline", "animal"], ["dog", "canine"]], true) := by
    unfold onePass
    simp [scan.eq_def, pyDedup, pyDedupAux, findDup, substitute_synonyms, firstIdx]
  have hp3 : onePass [["cat", "feline", "animal"], ["dog", "canine"]] =
      .ok ([["cat", "feline", "animal"], ["dog", "canine"]], false) := by
    unfold onePass
    simp [scan.eq_def, pyDedup, pyDedupAux, findDup, substitute_synonyms, firstIdx]
  rw [group_synonyms_sep (show pickSep "s.csv" = Except.ok ',' from rfl), hinit, loop_again hp1, loop_again hp2, loop_done hp3]

theorem eval_run_pair :
    group_synonyms "s.csv" ["cat,feline\n"] = .ok [["cat", "feline"]] := by
  have hinit : initFile ',' ["cat,feline\n"] = [["cat", "feline"]] := by decide
  have hp1 : onePass [["cat", "feline"]] = .ok ([["cat", "feline"]], false) := by
    unfold onePass
    simp [scan.eq_def, pyDedup, pyDedupAux, findDup, substitute_synonyms, firstIdx]
  rw [group_synonyms_sep (show pickSep "s.csv" = Except.ok ',' from rfl), hinit, loop_done hp1]

theorem eval_run_ws1 :
    group_synonyms_file "s.csv" ["x, y ,x\n"] = .ok "x, y \n" := by
  have hinit : initFile ',' ["x, y ,x\n"] = [["x", " y ", "x"]] := by decide
  have hp1 : onePass [["x", " y ", "x"]] = .ok ([["x", " y "]], true) := by
    unfold onePass
    simp [scan.eq_def, pyDedup, pyDedupAux, findDup, substitute_synonyms, firstIdx]
  have hp2 : onePass [["x", " y "]] = .ok ([["x", " y "]], false) := by
    unfold onePass
    simp [scan.eq_def, pyDedup, pyDedupAux, findDup, substitute_synonyms, firstIdx]
  rw [group_synonyms_file_sep (show pickSep "s.csv" = Except.ok ',' from rfl), hinit, loop_again hp1, loop_done hp2]
  rfl

theorem eval_run_ws2 :
    group_synonyms_file "s.csv" ["x, y \n"] = .ok "x, y\n" := by
  have hinit : initFile ',' ["x, y \n"] = [["x", " y"]] := by decide
  have hp1 : onePass [["x", " y"]] = .ok ([["x", " y"]], false) := by
    unfold onePass
    simp [scan.eq_def, pyDedup, pyDedupAux, findDup, substitute_synonyms, firstIdx]
  rw [group_synonyms_file_sep (show pickSep "s.csv" = Except.ok ',' from rfl), hinit, loop_done hp1]
  rfl

theorem eval_big_py :
    group_synonymsD pyDedup 2 "s.csv" ["big,large\n"] = .ok "big,large\n" := by
  have hinit : initFile ',' ["big,large\n"] = [["big", "large"]] := by decide
  have hp1 : scan pyDedup [["big", "large"]] 0 [] false =
      .ok ([["big", "large"]], false) := by
    simp [scan.eq_def, pyDedup, pyDedupAux, findDup, substitute_synonyms, firstIdx]
  rw [group_synonymsD_sep (show pickSep "s.csv" = Except.ok ',' from rfl), hinit]
  unfold loopD
  rw [hp1]
  rfl

theorem eval_big_rev :
    group_synonymsD revDedup 2 "s.csv" ["big,large\n"] = .ok "large,big\n" := by
  have hinit : initFile ',' ["big,large\n"] = [["big", "large"]] := by decide
  have hp1 : scan revDedup [["big", "large"]] 0 [] false =
      .ok ([["large", "big"]], false) := by
    simp [scan.eq_def, revDedup, pyDedup, pyDedupAux, findDup, substitute_synonyms, firstIdx]
  rw [group_synonymsD_sep (show pickSep "s.csv" = Except.ok ',' from rfl), hinit]
  unfold loopD
  rw [hp1]
  rfl

theorem eval_big_file :
    group_synonyms_file "s.csv" ["big,large\n"] = .ok "big,large\n" := by
  have hinit : initFile ',' ["big,large\n"] = [["big", "large"]] := by decide
  have hp1 : onePass [["big", "large"]] = .ok ([["big", "large"]], false) := by
    unfold onePass
    simp [scan.eq_def, pyDedup, pyDedupAux, findDup, substitute_synonyms, firstIdx]
  rw [group_synonyms_file_sep (show pickSep "s.csv" = Except.ok ',' from rfl), hinit, loop_done hp1]
  rfl

theorem eval_comment_merge :
    group_synonyms "s.csv" ["//CAT,feline\n", "feline,gato\n"] =
      .ok [["//cat", "feline", "gato"]] := by
  have hinit : initFile ',' ["//CAT,feline\n", "feline,gato\n"] =
      [["//cat", "feline"], ["feline", "gato"]] := by decide
  have hp1 : onePass [["//cat", "feline"], ["feline", "gato"]] =
      .ok ([["//cat", "feline", "feline", "gato"], []], true) := by
    unfold onePass
    simp [scan.eq_def, pyDedup, pyDedupAux, findDup, substitute_synonyms, firstIdx]
  have hp2 : onePass [["//cat", "feline", "feline", "gato"], []] =
      .ok ([["//cat", "feline", "gato"]], true) := by
    unfold onePass
    simp [scan.eq_def, pyDedup, pyDedupAux, findDup, substitute_synonyms, firstIdx]
  have hp3 : onePass [["//cat", "feline", "gato"]] =
      .ok ([["//cat", "feline", "gato"]], false) := by
    unfold onePass
    simp [scan.eq_def, pyDedup, pyDedupAux, findDup, substitute_synonyms, firstIdx]
  rw [group_synonyms_sep (show pickSep "s.csv" = Except.ok ',' from rfl), hinit, loop_again hp1, loop_again hp2, loop_done hp3]

theorem eval_comment_drop :
    group_synonyms "s.csv" ["//lonely\n"] = .ok [] := by
  have hinit : initFile ',' ["//lonely\n"] = [["//lonely"]] := by decide
  have hp1 : onePass [["//lonely"]] = .ok ([], true) := by
    unfold onePass
    simp [scan.eq_def, pyDedup, pyDedupAux, findDup, substitute_synonyms, firstIdx]
  have hp2 : onePass ([] : SynFile) = .ok ([], false) := scan_stop (by decide)
  rw [group_synonyms_sep (show pickSep "s.csv" = Except.ok ',' from rfl), hinit, loop_again hp1, loop_done hp2]

/-- C1: when `group_synonyms` terminates, the output lines are exactly the
connected components (of at least 2 distinct words) of the hypergraph whose
hyperedges are the parsed input lines: two distinct words share an output
line iff they are connected through shared membership in input lines; word
multiplicities within a line are removed; every output line is the full
component of each of its words; components of fewer than 2 words are
dropped. -/
theorem consolidation_components (name : String) (sep : Char) (lines : List String)
    (out : SynFile) (hsep : pickSep name = .ok sep)
    (h : group_synonyms name lines = .ok out) :
    (∀ a b, a ≠ b → (Together out a b ↔ Conn (initFile sep lines) a b))
    ∧ (∀ l ∈ out, l.Nodup)
    ∧ (∀ l ∈ out, 2 ≤ l.length)
    ∧ (∀ l ∈ out, ∀ a ∈ l, ∀ b, (b ∈ l ↔ Conn (initFile sep lines) a b))
    ∧ (∀ a, (∀ b, Conn (initFile sep lines) a b → b = a) → ∀ l ∈ out, a ∉ l) := by
  rw [group_synonyms_sep hsep] at h
  have hgood := loop_good _ out h
  have hconn := loop_conn _ out h
  have hdisj : Disjointed out := hgood.2
  have htog : ∀ a b, Together out a b → Conn (initFile sep lines) a b := fun a b ht =>
    (hconn a b).mp (Relation.ReflTransGen.single ht)
  have hback : ∀ a b, a ≠ b → Conn (initFile sep lines) a b → Together out a b := by
    intro a b hne hc
    rcases conn_collapse hdisj a b ((hconn a b).mpr hc) with he | ht
    · exact absurd he hne
    · exact ht
  refine ⟨fun a b hne => ⟨htog a b, hback a b hne⟩, fun l hl => (hgood.1 l hl).2,
    fun l hl => (hgood.1 l hl).1, ?_, ?_⟩
  · intro l hl a ha b
    constructor
    · intro hb
      exact htog a b ⟨l, hl, ha, hb⟩
    · intro hc
      by_cases hab : a = b
      · exact hab ▸ ha
      · obtain ⟨l', hl', ha', hb'⟩ := hback a b hab hc
        obtain ⟨k, hk, rfl⟩ := List.mem_iff_getElem.mp hl
        obtain ⟨k', hk', rfl⟩ := List.mem_iff_getElem.mp hl'
        have hkk : k = k' := by
          by_contra hkk
          exact hdisj k k' hk hk' hkk a ha ha'
        subst hkk
        exact hb'
  · intro a hsing l hl ha
    obtain ⟨b, hb, hba⟩ := exists_other (hgood.1 l hl).2 (hgood.1 l hl).1 ha
    exact hba (hsing b (htog a b ⟨l, hl, ha, hb⟩))

/-- Witness for C1 at the spec's own scenario: `cat,feline / dog,canine /
feline,animal` consolidates so that `cat` and `animal` share a line, and all
output lines are duplicate-free. -/
theorem consolidation_components_witness :
    Together [["cat", "feline", "animal"], ["dog", "canine"]] "cat" "animal"
    ∧ (∀ l ∈ [["cat", "feline", "animal"], ["dog", "canine"]], l.Nodup) := by
  have hc := consolidation_components "s.csv" ','
    ["cat,feline\n", "dog,canine\n", "feline,animal\n"]
    [["cat", "feline", "animal"], ["dog", "canine"]] rfl eval_run_cats
  refine ⟨?_, hc.2.1⟩
  refine (hc.1 "cat" "animal" (by decide)).mpr ?_
  have t1 : Together (initFile ',' ["cat,feline\n", "dog,canine\n", "feline,animal\n"])
      "cat" "feline" := ⟨["cat", "feline"], by decide, by decide, by decide⟩
  have t2 : Together (initFile ',' ["cat,feline\n", "dog,canine\n", "feline,animal\n"])
      "feline" "animal" := ⟨["feline", "animal"], by decide, by decide, by decide⟩
  exact (Relation.ReflTransGen.single t1).tail t2

/-- C2: every run of `group_synonyms` that returns an output satisfies the
post-consolidation invariant: each output line holds at least 2 distinct
words, and no word occurs in two different lines. -/
theorem post_invariant (name : String) (lines : List String) (out : SynFile)
    (h : group_synonyms name lines = .ok out) :
    (∀ l ∈ out, l.Nodup ∧ 2 ≤ l.length) ∧ Disjointed out := by
  unfold group_synonyms at h
  cases hps : pickSep name with
  | error e =>
    rw [hps] at h
    cases h
  | ok sep =>
    rw [hps] at h
    have hgood := loop_good _ out h
    exact ⟨fun l hl => ⟨(hgood.1 l hl).2, (hgood.1 l hl).1⟩, hgood.2⟩

/-- Witness for C2: the consolidated output of the three-line scenario has
pairwise-disjoint lines. -/
theorem post_invariant_witness :
    Disjointed [["cat", "feline", "animal"], ["dog", "canine"]] :=
  (post_invariant "s.csv" ["cat,feline\n", "dog,canine\n", "feline,animal\n"]
    [["cat", "feline", "animal"], ["dog", "canine"]] eval_run_cats).2

/-- C3: whenever the pass meets a word already processed, the merge-target
search of `substitute_synonyms` finds the first line containing the word at
an index strictly below the current one (so a line is never merged into
itself), and the search succeeds; consequently the only error
`group_synonyms` can ever raise is the unsupported-extension one — the
`Synonym ... not found` branch is unreachable for every input. -/
theorem merge_target_safety :
    (∀ (s : SynFile) (i : Nat) (P : List String) (w : String) (h : i < s.length),
      ScanInv s i P → w ∈ P →
      ∃ j, firstIdx (fun l => decide (w ∈ l)) (s.set i (pyDedup s[i])) = some j ∧ j < i ∧
        ∃ s2, substitute_synonyms w (pyDedup s[i]) i (s.set i (pyDedup s[i])) = .ok s2)
    ∧ (∀ (name : String) (lines : List String) (e : String),
        group_synonyms name lines = .error e →
        e = name ++ " is an invalid file extension. Only .csv and .tsv files are allowed") := by
  constructor
  · intro s i P w h hInv hwP
    obtain ⟨k0, hk0, hk0i, hwk0⟩ := hInv w hwP
    have hk0' : k0 < (s.set i (pyDedup s[i])).length := by simpa using hk0
    have hwk0' : w ∈ (s.set i (pyDedup s[i]))[k0] := by
      rw [List.getElem_set_ne (by omega) hk0']
      exact hwk0
    obtain ⟨j, hfi, hle⟩ :=
      firstIdx_found (p := fun l => decide (w ∈ l)) hk0' (by simpa using hwk0')
    obtain ⟨s2, hs2⟩ := substitute_success (pyDedup s[i]) i hk0' hwk0'
    exact ⟨j, hfi, by omega, s2, hs2⟩
  · intro name lines e h
    unfold group_synonyms at h
    cases hps : pickSep name with
    | error e' =>
      rw [hps] at h
      injection h with he
      subst he
      exact pickSep_error_msg hps
    | ok sep =>
      rw [hps] at h
      have h2 : loop (initFile sep lines) = .error e := h
      obtain ⟨out, hout⟩ := loop_ok (initFile sep lines)
      rw [hout] at h2
      cases h2

/-- C4: for every parsed input file the `while changes:` loop terminates:
finitely many passes reach a pass that reports no change, and that state is
what `loop` returns. -/
theorem fixed_point_termination (sep : Char) (lines : List String) :
    ∃ n out, passes n (initFile sep lines) = .ok (out, false) ∧
      loop (initFile sep lines) = .ok out :=
  loop_terminates (initFile sep lines)

/-- Counterexample to C5 as stated: a token carrying boundary whitespace is
re-trimmed when the engine re-reads its own output, so running the engine on
its own output can change it.  Input line `x, y ,x` consolidates to the file
`x, y \n`; running the engine on that file yields `x, y\n`. -/
theorem idempotence_counterexample :
    group_synonyms_file "s.csv" ["x, y ,x\n"] = .ok "x, y \n"
    ∧ group_synonyms_file "s.csv" ["x, y \n"] = .ok "x, y\n"
    ∧ ("x, y \n" : String) ≠ "x, y\n" :=
  ⟨eval_run_ws1, eval_run_ws2, by decide⟩

/-- C5 amended: running the engine a second time on its own written output
returns the same output, provided re-parsing the written file yields the
same token lists (which holds whenever no surviving token carries leading
or trailing whitespace): a converged partition is a fixed point. -/
theorem idempotence_amended (name : String) (sep : Char) (lines : List String)
    (out : SynFile) (hsep : pickSep name = .ok sep)
    (h : group_synonyms name lines = .ok out)
    (hround : initFile sep (out.map (fun l => pyJoin sep l ++ "\n")) = out) :
    group_synonyms name (out.map (fun l => pyJoin sep l ++ "\n")) = .ok out := by
  rw [group_synonyms_sep hsep] at h
  rw [group_synonyms_sep hsep, hround]
  exact loop_fix (loop_good _ out h)

/-- Witness for the amended C5: re-running the engine on the written output
of the `cat,feline` run reproduces that output. -/
theorem idempotence_amended_witness :
    group_synonyms "s.csv" ([["cat", "feline"]].map (fun l => pyJoin ',' l ++ "\n")) =
      .ok [["cat", "feline"]] :=
  idempotence_amended "s.csv" ',' ["cat,feline\n"] [["cat", "feline"]] rfl
    eval_run_pair (by decide)

/-- C6: a word appears somewhere in the output exactly when some parsed
input line contains it together with a second distinct word — words whose
every input line is degenerate are dropped, all others survive. -/
theorem word_preservation (name : String) (sep : Char) (lines : List String)
    (out : SynFile) (hsep : pickSep name = .ok sep)
    (h : group_synonyms name lines = .ok out) :
    ∀ w, (∃ l ∈ out, w ∈ l) ↔ Survives w (initFile sep lines) := by
  rw [group_synonyms_sep hsep] at h
  have hgood := loop_good _ out h
  have hsurv := loop_surv _ out h
  intro w
  constructor
  · rintro ⟨l, hl, hw⟩
    refine (hsurv w).mp ?_
    obtain ⟨b, hb, hba⟩ := exists_other (hgood.1 l hl).2 (hgood.1 l hl).1 hw
    exact ⟨l, hl, hw, b, hb, hba⟩
  · intro hs
    obtain ⟨l, hl, hw, -⟩ := (hsurv w).mpr hs
    exact ⟨l, hl, hw⟩

/-- Witness for C6: `feline` survives consolidation of the three-line
scenario. -/
theorem word_preservation_witness :
    ∃ l ∈ [["cat", "feline", "animal"], ["dog", "canine"]], "feline" ∈ l :=
  (word_preservation "s.csv" ',' ["cat,feline\n", "dog,canine\n", "feline,animal\n"]
    [["cat", "feline", "animal"], ["dog", "canine"]] rfl eval_run_cats "feline").mpr
    (by unfold Survives; decide)

/-- C7: a filename ending in neither `.csv` nor `.tsv` makes `group_synonyms`
fail immediately with the invalid-extension error — nothing is processed and
nothing is written; `.csv` selects the comma separator and `.tsv` the tab. -/
theorem unsupported_extension (name : String) (lines : List String) :
    (pyEndsWith name ".csv" = false → pyEndsWith name ".tsv" = false →
      group_synonyms name lines =
        .error (name ++ " is an invalid file extension. Only .csv and .tsv files are allowed")
      ∧ group_synonyms_file name lines =
        .error (name ++ " is an invalid file extension. Only .csv and .tsv files are allowed"))
    ∧ (pyEndsWith name ".csv" = true → pickSep name = .ok ',')
    ∧ (pyEndsWith name ".tsv" = true → pickSep name = .ok '\t') := by
  refine ⟨?_, fun h => pickSep_csv h, fun h => pickSep_tsv h⟩
  intro h1 h2
  have hbad := pickSep_bad h1 h2
  constructor
  · unfold group_synonyms
    rw [hbad]
  · unfold group_synonyms_file
    rw [hbad]

/-- Counterexample to C8 as stated: the engine's output depends on the order
in which CPython's `set` enumerates `list(set(line))`, which hash
randomization changes between runs.  Two legitimate enumeration orders give
different output files (`big,large` versus `large,big`) on the same input;
the engine proper (`group_synonyms_file`) realizes the first. -/
theorem determinism_counterexample :
    PySetEnum pyDedup ∧ PySetEnum revDedup
    ∧ group_synonymsD pyDedup 2 "s.csv" ["big,large\n"] = .ok "big,large\n"
    ∧ group_synonymsD revDedup 2 "s.csv" ["big,large\n"] = .ok "large,big\n"
    ∧ group_synonyms_file "s.csv" ["big,large\n"] = .ok "big,large\n"
    ∧ ("big,large\n" : String) ≠ "large,big\n" :=
  ⟨fun l => ⟨pyDedup_nodup l, fun w => mem_pyDedup⟩, revDedup_enum,
    eval_big_py, eval_big_rev, eval_big_file, by decide⟩

/-- C8 amended: with the set-enumeration order fixed, the engine is a pure
function of the filename and the file contents — equal inputs give equal
outputs — and with enough fuel the explicit-order engine at the
first-occurrence order coincides with the engine proper. -/
theorem determinism_amended :
    (∀ (dd : List String → List String) (fuel : Nat) (n1 n2 : String)
      (c1 c2 : List String), n1 = n2 → c1 = c2 →
      group_synonymsD dd fuel n1 c1 = group_synonymsD dd fuel n2 c2)
    ∧ (∀ (fuel : Nat) (s : SynFile), mu s < fuel → loopD pyDedup fuel s = loop s) :=
  ⟨fun dd fuel n1 n2 c1 c2 h1 h2 => by rw [h1, h2], loopD_pyDedup⟩

/-- C9: an input with zero lines consolidates without any error to an output
with zero lines, written back as the empty file. -/
theorem empty_file_graceful (name : String) (sep : Char) (h : pickSep name = .ok sep) :
    group_synonyms name [] = .ok [] ∧ group_synonyms_file name [] = .ok "" := by
  have hinit : initFile sep [] = [] := rfl
  have hp : onePass ([] : SynFile) = .ok ([], false) := scan_stop (by decide)
  constructor
  · rw [group_synonyms_sep h, hinit, loop_done hp]
  · rw [group_synonyms_file_sep h, hinit, loop_done hp]
    rfl

/-- Witness for C9 at a concrete filename. -/
theorem empty_file_graceful_witness :
    group_synonyms "s.csv" [] = .ok [] ∧ group_synonyms_file "s.csv" [] = .ok "" :=
  empty_file_graceful "s.csv" ',' rfl

/-- C10: consolidation is applied uniformly to every input line — the
initial state parses all lines, with no special case for the `//` comment
prefix the surrounding tooling honours: a `//`-prefixed line is lowercased
and split like any other, merges with lines sharing a token, and may be
discarded as degenerate. -/
theorem comment_lines_processed :
    (∀ (sep : Char) (lines : List String), initFile sep lines = lines.map (parseLine sep))
    ∧ parseLine ',' "//CAT,feline\n" = ["//cat", "feline"]
    ∧ group_synonyms "s.csv" ["//CAT,feline\n", "feline,gato\n"] =
        .ok [["//cat", "feline", "gato"]]
    ∧ group_synonyms "s.csv" ["//lonely\n"] = .ok [] :=
  ⟨fun sep lines => rfl, by decide, eval_comment_merge, eval_comment_drop⟩
